import Mathlib

/-!
Shallow embedding of the transactional core in `txn_impl.h` (silo).

The transaction object's state machine (`abort_impl`, the terminal-state
dispatch at the top of `commit`), the phases of `commit` (lock phase, read-set
validation, absent-set validation, the LOW_LEVEL_SCAN node-scan bookkeeping of
Phase A), and the absent-range maintenance (`add_absent_range`,
`key_in_absent_set`) are translated into pure Lean functions.  Tuple and btree
state that lives outside the transaction (version words, lock-protected
predicates, btree search) is passed in as explicit environment functions,
since the embedded code only observes it through those calls.  Byte-string
keys and pointer identities are modelled by `Nat` (only their linear order and
equality are used by the embedded code).
-/

namespace Silo

/-- Transaction states, from the `txn_state` enumeration used by
`txn_impl.h` (spelling kept, including `TXN_COMMITED`). -/
inductive txn_state
  | TXN_EMBRYO
  | TXN_ACTIVE
  | TXN_ABRT
  | TXN_COMMITED
deriving DecidableEq, Repr

/-- Abort reasons minted by the code in `txn_impl.h` (source spellings kept,
including the doubled E of `INTEREFERENCE`), plus the user-initiated reason
used by explicit aborts. -/
inductive abort_reason
  | ABORT_REASON_USER
  | ABORT_REASON_WRITE_NODE_INTERFERENCE
  | ABORT_REASON_READ_NODE_INTEREFERENCE
  | ABORT_REASON_READ_ABSENCE_INTEREFERENCE
  | ABORT_REASON_NODE_SCAN_READ_VERSION_CHANGED
deriving DecidableEq, Repr

/-- Faults thrown by the transaction object: `transaction_abort_exception`
carrying the abort reason, and `transaction_unusable_exception`. -/
inductive txn_fault
  | abort_exception (r : abort_reason)
  | unusable_exception
deriving DecidableEq, Repr

/-- The part of `transaction_base` that the state machine reads and writes:
the current state and the stored abort reason. -/
structure transaction_base where
  state : txn_state
  reason : abort_reason
deriving DecidableEq, Repr

/-- `transaction::abort_impl` (txn_impl.h lines 34-51): EMBRYO and ACTIVE
fall through the switch and then set `state = TXN_ABRT` and record the
supplied reason; ABRT returns immediately; COMMITED throws
`transaction_unusable_exception`.  (`abort_trap` and `clear` mutate nothing
that this model tracks.) -/
def abort_impl (t : transaction_base) (reason : abort_reason) :
    Except txn_fault transaction_base :=
  match t.state with
  | .TXN_EMBRYO => .ok { state := .TXN_ABRT, reason := reason }
  | .TXN_ACTIVE => .ok { state := .TXN_ABRT, reason := reason }
  | .TXN_ABRT => .ok t
  | .TXN_COMMITED => .error .unusable_exception

/-- The terminal-state dispatch at the top of `transaction::commit`
(txn_impl.h lines 171-181): EMBRYO and ACTIVE fall through (`none`, meaning
the commit protocol proper runs); COMMITED returns `true`; ABRT either throws
`transaction_abort_exception(reason)` (when `doThrow`) or returns `false`.
The transaction is returned unchanged alongside the outcome, mirroring that
these early paths perform no mutation. -/
def commit_dispatch (t : transaction_base) (doThrow : Bool) :
    transaction_base × Except txn_fault (Option Bool) :=
  match t.state with
  | .TXN_EMBRYO => (t, .ok none)
  | .TXN_ACTIVE => (t, .ok none)
  | .TXN_COMMITED => (t, .ok (some true))
  | .TXN_ABRT =>
      if doThrow then (t, .error (.abort_exception t.reason))
      else (t, .ok (some false))

/-- A read-set record (`read_record_t` as used by txn_impl.h): the tid `t`
observed at read time, and the `holds_lock` flag set during Phase A when the
tuple is also a write target. -/
structure read_rec where
  t : Nat
  holds_lock : Bool
deriving DecidableEq, Repr

/-- The per-entry check of the read-validation loop (txn_impl.h lines
340-342): the lock-protected predicate `is_latest_version` when the entry
holds the lock, the seqlock-style `stable_is_latest_version` otherwise.  The
two tuple predicates live in the storage layer, so they are passed in as
environment functions of the tuple identity and the tid. -/
def read_entry_check (lat stab : Nat → Nat → Bool) (p : Nat × read_rec) : Bool :=
  if p.2.holds_lock then lat p.1 p.2.t else stab p.1 p.2.t

/-- The read-set validation loop of `transaction::commit` (txn_impl.h lines
330-353): entries are checked in order; the first failing check aborts with
`ABORT_REASON_READ_NODE_INTEREFERENCE`. -/
def read_set_validation (lat stab : Nat → Nat → Bool) :
    List (Nat × read_rec) → Except abort_reason Unit
  | [] => .ok ()
  | p :: rest =>
      if read_entry_check lat stab p then read_set_validation lat stab rest
      else .error .ABORT_REASON_READ_NODE_INTEREFERENCE

/-- Absent-set record kinds (`ABSENT_REC_READ`, `ABSENT_REC_WRITE`,
`ABSENT_REC_INSERT`), as used by txn_impl.h. -/
inductive absent_record_type
  | ABSENT_REC_READ
  | ABSENT_REC_WRITE
  | ABSENT_REC_INSERT
deriving DecidableEq, Repr

/-- An absent-set record: its kind and the saved tuple identity.  The code
asserts the tuple is set for `ABSENT_REC_WRITE` and ignores it (re-searching
the key instead) for `ABSENT_REC_READ`, so the field is total here. -/
structure absent_record where
  type : absent_record_type
  tuple : Nat
deriving DecidableEq, Repr

/-- The per-entry check of the absent-set validation loop (txn_impl.h lines
360-385): INSERT entries pass unconditionally; WRITE entries require the
saved tuple's `latest_value_is_nil` (lock-protected); READ entries re-search
the key, pass on a miss, and on a hit require the found tuple's
`stable_latest_value_is_nil`.  `search`, `latest_nil` and `stable_nil` are
the btree and tuple operations, passed as environment functions. -/
def absent_entry_check (search : Nat → Option Nat) (latest_nil stable_nil : Nat → Bool)
    (p : Nat × absent_record) : Bool :=
  match p.2.type with
  | .ABSENT_REC_INSERT => true
  | .ABSENT_REC_WRITE => latest_nil p.2.tuple
  | .ABSENT_REC_READ =>
      match search p.1 with
      | none => true
      | some v => stable_nil v

/-- The absent-set validation loop of `transaction::commit` (txn_impl.h lines
355-389): entries are checked in order; the first failing check aborts with
`ABORT_REASON_READ_ABSENCE_INTEREFERENCE`. -/
def absent_set_validation (search : Nat → Option Nat) (latest_nil stable_nil : Nat → Bool) :
    List (Nat × absent_record) → Except abort_reason Unit
  | [] => .ok ()
  | p :: rest =>
      if absent_entry_check search latest_nil stable_nil p then
        absent_set_validation search latest_nil stable_nil rest
      else .error .ABORT_REASON_READ_ABSENCE_INTEREFERENCE

/-- Association-list lookup for the `node_scan` map (leaf-node identity to
observed version number). -/
def ns_lookup : List (Nat × Nat) → Nat → Option Nat
  | [], _ => none
  | (n, v) :: rest, node => if n = node then some v else ns_lookup rest node

/-- In-place increment of the recorded version for a node, as `nit->second++`
does on the `node_scan` map entry found by `find`. -/
def ns_bump : List (Nat × Nat) → Nat → List (Nat × Nat)
  | [], _ => []
  | (n, v) :: rest, node =>
      if n = node then (n, v + 1) :: rest else (n, v) :: ns_bump rest node

/-- The LOW_LEVEL_SCAN node-scan bookkeeping of commit's Phase A (txn_impl.h
lines 249-265), run after a successful `insert_if_absent`: look up the leaf
node returned by the insert (`insert_info.first`) in `node_scan`; if absent,
nothing happens; if present at recorded version `v` and the version reported
by the insert differs, abort with `ABORT_REASON_WRITE_NODE_INTERFERENCE`;
otherwise bump the recorded version by one. -/
def node_scan_insert_check (ns : List (Nat × Nat)) (node ver : Nat) :
    Except abort_reason (List (Nat × Nat)) :=
  match ns_lookup ns node with
  | none => .ok ns
  | some v =>
      if v ≠ ver then .error .ABORT_REASON_WRITE_NODE_INTERFERENCE
      else .ok (ns_bump ns node)

/-- What commit's lock phase observes about a tuple when it acquires the
tuple's lock (txn_impl.h lines 304-309): the DELETING and LATEST bits of the
version word returned by `lock(true)`, and the tid carried by the tuple's
`version` field, which is what `can_read_tid` is applied to. -/
structure tuple_obs where
  deleting : Bool
  latest : Bool
  tid : Nat
deriving DecidableEq, Repr

/-- The abort condition of the lock phase (txn_impl.h lines 307-309):
`IsDeleting(v) || !IsLatest(v) || !can_read_tid(version)`. -/
def bad_version (v : tuple_obs) (can_read : Nat → Bool) : Bool :=
  v.deleting || !v.latest || !can_read v.tid

/-- Modelled from the spec: `LNodeComp` (declared in txn.h, body not under
src/) orders the dbtuple list by stable tuple identity, i.e. pointer order on
the tuple; tuple identities are `Nat` here, entries pair the identity with
the `locked` flag of its `dbtuple_info`. -/
def lnode_le (p q : Nat × Bool) : Prop := p.1 ≤ q.1

instance : DecidableRel lnode_le := fun p q => inferInstanceAs (Decidable (p.1 ≤ q.1))

/-- The loop body of commit's lock phase (txn_impl.h lines 298-314), run on
the sorted dbtuple list: entries whose `locked` flag is already set (from
Phase A's `insert_if_absent`) are skipped; every other tuple is locked in
list order.  The version word observed at lock acquisition is supplied by the
environment `obs`; if it is DELETING, not LATEST, or carries a tid the
snapshot cannot read, the loop aborts with
`ABORT_REASON_WRITE_NODE_INTERFERENCE`.  The returned list is the trace of
tuple identities locked by this loop, in acquisition order. -/
def lock_write_nodes (obs : Nat → tuple_obs) (can_read : Nat → Bool) :
    List (Nat × Bool) → Except abort_reason (List Nat)
  | [] => .ok []
  | (id, locked) :: rest =>
      if locked then lock_write_nodes obs can_read rest
      else if bad_version (obs id) can_read then
        .error .ABORT_REASON_WRITE_NODE_INTERFERENCE
      else
        match lock_write_nodes obs can_read rest with
        | .ok tr => .ok (id :: tr)
        | .error e => .error e

/-- Commit's full lock phase (txn_impl.h lines 296-314): sort the dbtuple
list by tuple identity (`std::sort` with `LNodeComp`), then run the lock
loop over the sorted list. -/
def lock_phase (obs : Nat → tuple_obs) (can_read : Nat → Bool)
    (dbtuples : List (Nat × Bool)) : Except abort_reason (List Nat) :=
  lock_write_nodes obs can_read (List.insertionSort lnode_le dbtuples)

/-- An absent key range, from `transaction_base::key_range_t` (txn.h):
inclusive lower bound `a`, and either an exclusive upper bound `b`
(`has_b = true`) or no upper bound (the range extends to infinity).  Keys
are byte strings in the source; only their linear order is used, so they are
modelled by `Nat`.  The `b` field of an open-ended range is the
default-constructed key, modelled as `0`. -/
structure key_range_t where
  a : Nat
  has_b : Bool
  b : Nat
deriving DecidableEq, Repr

namespace key_range_t

/-- Modelled from the spec: `key_range_t::is_empty_range` (txn.h, body not
under src/) — a range is empty when it has an upper bound and the half-open
interval from `a` to `b` contains no key (`b ≤ a`); the spec's
`lo == hi with upper bound present` is the typical case. -/
def is_empty_range (r : key_range_t) : Bool :=
  r.has_b && r.b ≤ r.a

/-- Modelled from the spec: `key_range_t::key_in_range` (declared in txn.h,
body not under src/) — membership of a key in the half-open (or open-ended)
interval: `a ≤ k` and, when an upper bound is present, `k < b`. -/
def key_in_range (r : key_range_t) (k : Nat) : Bool :=
  r.a ≤ k && (!r.has_b || k < r.b)

/-- Modelled from the spec: `key_range_t::contains` (declared in txn.h, body
not under src/) — one absent range fully contains another: its lower bound is
not above the other's, and its upper bound subsumes the other's (an
open-ended range subsumes any upper bound; a bounded range never contains an
open-ended one). -/
def contains (r that : key_range_t) : Bool :=
  if that.a < r.a then false
  else if !r.has_b then true
  else if !that.has_b then false
  else that.b ≤ r.b

end key_range_t

/-- Modelled from the spec: `key_range_search_less_cmp` (txn.h, body not
under src/) — the comparator handed to `std::upper_bound` over the ranges'
bounds: a key `k` sorts before a range iff the range is open-ended or `k`
is below the range's upper bound. -/
def key_range_search_less_cmp (k : Nat) (r : key_range_t) : Bool :=
  !r.has_b || k < r.b

/-- The split that `std::upper_bound` with `key_range_search_less_cmp`
produces on the absent-range vector: the longest prefix of ranges the key
does not sort before, and the rest (whose head, if any, is the iterator
`upper_bound` returns).  On a vector satisfying the sorted-disjoint
invariant the comparator is monotone along the vector, so the first match
found linearly is the same element binary search locates. -/
def ubSplit (k : Nat) : List key_range_t → List key_range_t × List key_range_t
  | [] => ([], [])
  | r :: rest =>
      if key_range_search_less_cmp k r then ([], r :: rest)
      else
        let p := ubSplit k rest
        (r :: p.1, p.2)

/-- `txn_context::key_in_absent_set` (txn_impl.h lines 546-556): locate the
candidate range by `upper_bound` over the ranges' bounds; if the iterator is
at the end return false, otherwise test the single candidate with
`key_in_range`. -/
def key_in_absent_set (rs : List key_range_t) (k : Nat) : Bool :=
  match (ubSplit k rs).2 with
  | [] => false
  | it :: _ => it.key_in_range k

/-- The body of `txn_context::add_absent_range` past the `merge_left` and
`left_key` computation (txn_impl.h lines 596-636), for the case where the
`upper_bound` iterator `it` is not at the end and `it` does not contain the
inserted range: `newpre` is the copied prefix (`begin()` up to `it-1` or
`it`), `left_key` the computed left key, and `stail` the ranges past `it`.
The `it1` scan of the right-overlap case becomes `dropWhile`. -/
def add_main (range : key_range_t) (newpre : List key_range_t) (left_key : Nat)
    (it : key_range_t) (stail : List key_range_t) : List key_range_t :=
  if range.has_b then
    if !it.has_b || range.b ≤ it.b then
      if range.b < it.a then
        newpre ++ { a := left_key, has_b := true, b := range.b } :: it :: stail
      else
        newpre ++ { a := left_key, has_b := it.has_b, b := it.b } :: stail
    else
      match stail.dropWhile
          (fun r => !(decide (range.b ≤ r.a) || !r.has_b || decide (range.b ≤ r.b))) with
      | [] => newpre ++ [{ a := left_key, has_b := true, b := range.b }]
      | it1 :: tail1 =>
          if it1.a ≤ range.b then
            newpre ++ { a := left_key, has_b := it1.has_b, b := it1.b } :: tail1
          else
            newpre ++ { a := left_key, has_b := true, b := range.b } :: it1 :: tail1
  else newpre ++ [{ a := left_key, has_b := false, b := 0 }]

/-- `txn_context::add_absent_range` (txn_impl.h lines 558-640), translated
branch for branch.  `rs` is the absent-range vector; `ubSplit` plays the
role of the `upper_bound` call, so `pre ++ suf = rs` with the iterator `it`
at the head of `suf`.  Vector slicing (`begin()..it-1`, `it+1..end()`) becomes
list splitting; the in-place `back()` update of the `it == end` branch and
the `new_absent_range_set` construction of the main branch both become the
returned list.  `merge_left` holds when `pre` is non-empty and its last
range ends exactly at `range.a`; the subsumed main branch is `add_main`. -/
def add_absent_range (rs : List key_range_t) (range : key_range_t) : List key_range_t :=
  if range.is_empty_range then rs
  else
    match ubSplit range.a rs with
    | (pre, []) =>
        match pre.getLast? with
        | some last =>
            if last.b = range.a then
              pre.dropLast ++ [{ a := last.a, has_b := range.has_b, b := range.b }]
            else pre ++ [range]
        | none => [range]
    | (pre, it :: stail) =>
        if it.contains range then rs
        else
          match pre.getLast? with
          | some prev =>
              if prev.b = range.a then
                add_main range pre.dropLast prev.a it stail
              else add_main range pre (min it.a range.a) it stail
          | none => add_main range pre (min it.a range.a) it stail

/-- One range may legitimately follow another in the absent-range vector:
the earlier one is bounded and ends at or before the later one starts. -/
def range_step (r1 r2 : key_range_t) : Prop :=
  r1.has_b = true ∧ r1.b ≤ r2.a

instance : DecidableRel range_step := fun r1 r2 =>
  inferInstanceAs (Decidable (r1.has_b = true ∧ r1.b ≤ r2.a))

/-- A range denotes a non-empty set of keys: if bounded, its lower bound is
strictly below its upper bound. -/
def nonempty_range (r : key_range_t) : Prop :=
  r.has_b = true → r.a < r.b

instance : DecidablePred nonempty_range := fun r =>
  inferInstanceAs (Decidable (r.has_b = true → r.a < r.b))

/-- The sorted-disjoint invariant of `absent_range_set`: every range is
non-empty, and consecutive ranges are separated (`range_step`), which forces
strictly increasing lower bounds and pairwise-disjoint intervals. -/
def range_set_ok (rs : List key_range_t) : Prop :=
  (∀ r ∈ rs, nonempty_range r) ∧ rs.Chain' range_step

instance : DecidablePred range_set_ok := fun rs =>
  inferInstanceAs (Decidable ((∀ r ∈ rs, nonempty_range r) ∧ rs.Chain' range_step))

/-- A key is covered by the absent-range vector: some range contains it. -/
def covers (rs : List key_range_t) (k : Nat) : Prop :=
  ∃ r ∈ rs, r.key_in_range k = true

instance : ∀ rs k, Decidable (covers rs k) := fun rs k =>
  inferInstanceAs (Decidable (∃ r ∈ rs, r.key_in_range k = true))

/-- Strict separation of consecutive ranges: the earlier one is bounded and
ends strictly before the later one starts, so the two do not even touch. -/
def range_step_strict (r1 r2 : key_range_t) : Prop :=
  r1.has_b = true ∧ r1.b < r2.a

instance : DecidableRel range_step_strict := fun r1 r2 =>
  inferInstanceAs (Decidable (r1.has_b = true ∧ r1.b < r2.a))

/-- The fully-coalesced form of `absent_range_set`: every range non-empty and
consecutive ranges strictly separated.  A set in this form has no
left-adjacent pair left unmerged; `add_absent_range` preserves it because its
`back().b == range.a` and `merge_left` branches coalesce left-adjacency. -/
def range_set_strict (rs : List key_range_t) : Prop :=
  (∀ r ∈ rs, nonempty_range r) ∧ rs.Chain' range_step_strict

instance : DecidablePred range_set_strict := fun rs =>
  inferInstanceAs (Decidable ((∀ r ∈ rs, nonempty_range r) ∧ rs.Chain' range_step_strict))

/-! ### Theorems -/

theorem lwn_cons_locked (obs : Nat → tuple_obs) (cr : Nat → Bool)
    (id : Nat) (rest : List (Nat × Bool)) :
    lock_write_nodes obs cr ((id, true) :: rest) = lock_write_nodes obs cr rest := by
  simp [lock_write_nodes]

theorem lwn_cons_bad (obs : Nat → tuple_obs) (cr : Nat → Bool)
    (id : Nat) (rest : List (Nat × Bool)) (hb : bad_version (obs id) cr = true) :
    lock_write_nodes obs cr ((id, false) :: rest) =
      .error .ABORT_REASON_WRITE_NODE_INTERFERENCE := by
  simp [lock_write_nodes, hb]

theorem lwn_cons_good (obs : Nat → tuple_obs) (cr : Nat → Bool)
    (id : Nat) (rest : List (Nat × Bool)) (hb : bad_version (obs id) cr = false) :
    lock_write_nodes obs cr ((id, false) :: rest) =
      (lock_write_nodes obs cr rest).map (fun tr => id :: tr) := by
  cases hrec : lock_write_nodes obs cr rest with
  | ok tr => simp [lock_write_nodes, hb, hrec, Except.map]
  | error e => simp [lock_write_nodes, hb, hrec, Except.map]

theorem lock_write_nodes_error_iff (obs : Nat → tuple_obs) (cr : Nat → Bool)
    (l : List (Nat × Bool)) :
    ∀ e, lock_write_nodes obs cr l = .error e ↔
      e = .ABORT_REASON_WRITE_NODE_INTERFERENCE ∧
        ∃ p ∈ l, p.2 = false ∧ bad_version (obs p.1) cr = true := by
  induction l with
  | nil => intro e; simp [lock_write_nodes]
  | cons p rest ih =>
      intro e
      obtain ⟨id, locked⟩ := p
      cases locked with
      | true => simpa [lwn_cons_locked] using ih e
      | false =>
          cases hb : bad_version (obs id) cr with
          | true =>
              rw [lwn_cons_bad obs cr id rest hb]
              constructor
              · intro h
                injection h with h
                exact ⟨h.symm, (id, false), by simp, rfl, hb⟩
              · rintro ⟨he, -⟩
                rw [he]
          | false =>
              rw [lwn_cons_good obs cr id rest hb]
              cases hrec : lock_write_nodes obs cr rest with
              | ok tr =>
                  simp only [Except.map, hrec]
                  constructor
                  · intro h; exact absurd h (by simp)
                  · rintro ⟨he, q, hq, hq2, hq3⟩
                    rcases List.mem_cons.mp hq with hq | hq
                    · rw [hq] at hq3
                      simp only at hq3
                      rw [hq3] at hb
                      exact absurd hb (by simp)
                    · exact absurd ((ih e).mpr ⟨he, q, hq, hq2, hq3⟩) (by simp [hrec])
              | error e2 =>
                  simp only [Except.map, hrec]
                  obtain ⟨he2, q, hq, hq2, hq3⟩ := (ih e2).mp hrec
                  constructor
                  · intro h
                    injection h with h
                    subst h
                    exact ⟨he2, q, by simp [hq], hq2, hq3⟩
                  · rintro ⟨he, -⟩
                    rw [he, he2]

theorem lock_write_nodes_ok_trace (obs : Nat → tuple_obs) (cr : Nat → Bool)
    (l : List (Nat × Bool)) :
    ∀ tr, lock_write_nodes obs cr l = .ok tr →
      tr = (l.filter (fun p => !p.2)).map Prod.fst := by
  induction l with
  | nil => intro tr h; simpa [lock_write_nodes] using h.symm
  | cons p rest ih =>
      intro tr h
      obtain ⟨id, locked⟩ := p
      cases locked with
      | true =>
          rw [lwn_cons_locked] at h
          simpa using ih tr h
      | false =>
          cases hb : bad_version (obs id) cr with
          | true => rw [lwn_cons_bad obs cr id rest hb] at h; exact absurd h (by simp)
          | false =>
              rw [lwn_cons_good obs cr id rest hb] at h
              cases hrec : lock_write_nodes obs cr rest with
              | ok tr2 =>
                  rw [hrec] at h
                  simp only [Except.map] at h
                  injection h with h
                  subst h
                  simp [ih tr2 hrec]
              | error e2 => rw [hrec] at h; exact absurd h (by simp [Except.map])

/-- Claim C2: in commit's lock phase, for a transaction whose Phase A
produced a non-empty write-tuple list, the list is sorted by stable tuple
identity; tuples not already locked by Phase A's `insert_if_absent` are
locked in that sorted order (the ok-trace is exactly the unlocked entries in
sorted order); and the phase aborts with
`ABORT_REASON_WRITE_NODE_INTERFERENCE` exactly when some tuple it must lock
shows a version word with DELETING set, without LATEST, or with a tid not
readable under this transaction's snapshot. -/
theorem commit_lock_phase_spec (obs : Nat → tuple_obs) (cr : Nat → Bool)
    (l : List (Nat × Bool)) :
    (List.insertionSort lnode_le l).Sorted lnode_le ∧
    (List.insertionSort lnode_le l).Perm l ∧
    (∀ e, lock_phase obs cr l = .error e ↔
        e = .ABORT_REASON_WRITE_NODE_INTERFERENCE ∧
          ∃ p ∈ List.insertionSort lnode_le l, p.2 = false ∧
            (bad_version (obs p.1) cr = true)) ∧
    (∀ tr, lock_phase obs cr l = .ok tr →
        tr = ((List.insertionSort lnode_le l).filter (fun p => !p.2)).map Prod.fst) := by
  refine ⟨?_, List.perm_insertionSort lnode_le l, ?_, ?_⟩
  · haveI : IsTotal (Nat × Bool) lnode_le := ⟨fun a b => Nat.le_total a.1 b.1⟩
    haveI : IsTrans (Nat × Bool) lnode_le := ⟨fun a b c => Nat.le_trans⟩
    exact List.sorted_insertionSort lnode_le l
  · exact lock_write_nodes_error_iff obs cr _
  · exact lock_write_nodes_ok_trace obs cr _

theorem commit_lock_phase_spec_witness :
    ([2] : List Nat) =
      ((List.insertionSort lnode_le [((3 : Nat), true), (2, false)]).filter
        (fun p => !p.2)).map Prod.fst :=
  (commit_lock_phase_spec (fun _ => ⟨false, true, 0⟩) (fun _ => true)
    [(3, true), (2, false)]).2.2.2 [2] rfl

theorem check_loop_ok_iff {α : Type} (check : α → Bool) (bad : abort_reason)
    (f : List α → Except abort_reason Unit)
    (hnil : f [] = .ok ())
    (hcons : ∀ p rest, f (p :: rest) = if check p then f rest else .error bad) :
    ∀ l, (f l = .ok () ↔ ∀ p ∈ l, check p = true) := by
  intro l
  induction l with
  | nil => simp [hnil]
  | cons p rest ih =>
      rw [hcons]
      by_cases hc : check p = true
      · rw [if_pos hc, ih]
        simp [hc]
      · rw [if_neg hc]
        simp only [Bool.not_eq_true] at hc
        constructor
        · intro h; exact absurd h (by simp)
        · intro h; exact absurd (h p (by simp)) (by simp [hc])

theorem check_loop_error_iff {α : Type} (check : α → Bool) (bad : abort_reason)
    (f : List α → Except abort_reason Unit)
    (hnil : f [] = .ok ())
    (hcons : ∀ p rest, f (p :: rest) = if check p then f rest else .error bad) :
    ∀ l e, (f l = .error e ↔ e = bad ∧ ∃ p ∈ l, check p = false) := by
  intro l
  induction l with
  | nil => intro e; simp [hnil]
  | cons p rest ih =>
      intro e
      rw [hcons]
      by_cases hc : check p = true
      · rw [if_pos hc, ih e]
        constructor
        · rintro ⟨he, q, hq, hq2⟩; exact ⟨he, q, by simp [hq], hq2⟩
        · rintro ⟨he, q, hq, hq2⟩
          rcases List.mem_cons.mp hq with hq | hq
          · rw [hq] at hq2; rw [hq2] at hc; exact absurd hc (by simp)
          · exact ⟨he, q, hq, hq2⟩
      · rw [if_neg hc]
        simp only [Bool.not_eq_true] at hc
        constructor
        · intro h
          injection h with h
          exact ⟨h.symm, p, by simp, hc⟩
        · rintro ⟨he, -⟩; rw [he]

/-- Claim C3: in commit's validation phase, each read-set entry `(tuple, t)`
is checked with the lock-protected `is_latest_version` when its `holds_lock`
flag is set and with the seqlock-style `stable_is_latest_version` otherwise,
and the loop aborts with `ABORT_REASON_READ_NODE_INTEREFERENCE` exactly when
some entry fails this check. -/
theorem read_validation_spec (lat stab : Nat → Nat → Bool) (l : List (Nat × read_rec)) :
    (read_set_validation lat stab l = .ok () ↔
      ∀ p ∈ l, (if p.2.holds_lock then lat p.1 p.2.t else stab p.1 p.2.t) = true) ∧
    (∀ e, read_set_validation lat stab l = .error e ↔
      e = .ABORT_REASON_READ_NODE_INTEREFERENCE ∧
        ∃ p ∈ l, (if p.2.holds_lock then lat p.1 p.2.t else stab p.1 p.2.t) = false) := by
  have hcons : ∀ p rest, read_set_validation lat stab (p :: rest) =
      if read_entry_check lat stab p then read_set_validation lat stab rest
      else .error .ABORT_REASON_READ_NODE_INTEREFERENCE := fun p rest => rfl
  exact ⟨check_loop_ok_iff (read_entry_check lat stab) _ _ rfl hcons l,
    check_loop_error_iff (read_entry_check lat stab) _ _ rfl hcons l⟩

theorem read_validation_spec_witness :
    read_set_validation (fun _ _ => true) (fun _ _ => false) [(5, ⟨7, false⟩)] =
      .error .ABORT_REASON_READ_NODE_INTEREFERENCE :=
  ((read_validation_spec (fun _ _ => true) (fun _ _ => false) [(5, ⟨7, false⟩)]).2
    .ABORT_REASON_READ_NODE_INTEREFERENCE).mpr
    ⟨rfl, (5, ⟨7, false⟩), by simp, rfl⟩

/-- Claim C4: in commit's validation phase, an absent-set entry of kind
INSERT is skipped; kind WRITE requires the saved tuple's latest value to be
nil under its lock; kind READ re-searches the key, passes on a miss, and on
a hit requires the located tuple's latest value to be nil via the stable
predicate; the loop aborts with `ABORT_REASON_READ_ABSENCE_INTEREFERENCE`
exactly when some entry violates this. -/
theorem absent_validation_spec (search : Nat → Option Nat)
    (latest_nil stable_nil : Nat → Bool) (l : List (Nat × absent_record)) :
    (∀ p : Nat × absent_record,
      (p.2.type = .ABSENT_REC_INSERT →
        absent_entry_check search latest_nil stable_nil p = true) ∧
      (p.2.type = .ABSENT_REC_WRITE →
        (absent_entry_check search latest_nil stable_nil p = true ↔
          latest_nil p.2.tuple = true)) ∧
      (p.2.type = .ABSENT_REC_READ →
        (absent_entry_check search latest_nil stable_nil p = true ↔
          (search p.1 = none ∨ ∃ v, search p.1 = some v ∧ stable_nil v = true)))) ∧
    (absent_set_validation search latest_nil stable_nil l = .ok () ↔
      ∀ p ∈ l, absent_entry_check search latest_nil stable_nil p = true) ∧
    (∀ e, absent_set_validation search latest_nil stable_nil l = .error e ↔
      e = .ABORT_REASON_READ_ABSENCE_INTEREFERENCE ∧
        ∃ p ∈ l, absent_entry_check search latest_nil stable_nil p = false) := by
  have hcons : ∀ p rest, absent_set_validation search latest_nil stable_nil (p :: rest) =
      if absent_entry_check search latest_nil stable_nil p then
        absent_set_validation search latest_nil stable_nil rest
      else .error .ABORT_REASON_READ_ABSENCE_INTEREFERENCE := fun p rest => rfl
  refine ⟨?_, check_loop_ok_iff _ _ _ rfl hcons l, check_loop_error_iff _ _ _ rfl hcons l⟩
  intro p
  refine ⟨fun ht => ?_, fun ht => ?_, fun ht => ?_⟩
  · simp [absent_entry_check, ht]
  · simp [absent_entry_check, ht]
  · cases hs : search p.1 with
    | none => simp [absent_entry_check, ht, hs]
    | some v => simp [absent_entry_check, ht, hs]

theorem absent_validation_spec_witness :
    absent_set_validation (fun _ => none) (fun _ => false) (fun _ => true)
      [(1, ⟨.ABSENT_REC_WRITE, 9⟩)] = .error .ABORT_REASON_READ_ABSENCE_INTEREFERENCE :=
  ((absent_validation_spec (fun _ => none) (fun _ => false) (fun _ => true)
    [(1, ⟨.ABSENT_REC_WRITE, 9⟩)]).2.2 .ABORT_REASON_READ_ABSENCE_INTEREFERENCE).mpr
    ⟨rfl, (1, ⟨.ABSENT_REC_WRITE, 9⟩), by simp, rfl⟩

theorem ns_lookup_bump_self (ns : List (Nat × Nat)) (node v : Nat)
    (h : ns_lookup ns node = some v) :
    ns_lookup (ns_bump ns node) node = some (v + 1) := by
  induction ns with
  | nil => simp [ns_lookup] at h
  | cons q rest ih =>
      obtain ⟨n, w⟩ := q
      by_cases hn : n = node
      · subst hn
        simp [ns_lookup] at h
        simp [ns_bump, ns_lookup, h]
      · simp [ns_lookup, hn] at h
        simp [ns_bump, ns_lookup, hn, ih h]

theorem ns_lookup_bump_other (ns : List (Nat × Nat)) (node m : Nat) (hm : m ≠ node) :
    ns_lookup (ns_bump ns node) m = ns_lookup ns m := by
  induction ns with
  | nil => simp [ns_bump]
  | cons q rest ih =>
      obtain ⟨n, w⟩ := q
      by_cases hn : n = node
      · subst hn
        have : ¬n = m := fun hc => hm hc.symm
        simp [ns_bump, ns_lookup, this]
      · simp [ns_bump, ns_lookup, hn, ih]

/-- Claim C5: in commit's Phase A under LOW_LEVEL_SCAN, when the leaf node
returned by a successful `insert_if_absent` has a `node_scan` entry recorded
at version `v`: if the node version reported by the insert differs from `v`
the step aborts with `ABORT_REASON_WRITE_NODE_INTERFERENCE`; otherwise the
recorded version for that node is incremented by exactly one and no other
node's record changes. -/
theorem node_scan_insert_spec (ns : List (Nat × Nat)) (node ver v : Nat)
    (h : ns_lookup ns node = some v) :
    (v ≠ ver →
      node_scan_insert_check ns node ver = .error .ABORT_REASON_WRITE_NODE_INTERFERENCE) ∧
    (v = ver →
      node_scan_insert_check ns node ver = .ok (ns_bump ns node) ∧
      ns_lookup (ns_bump ns node) node = some (v + 1) ∧
      ∀ m, m ≠ node → ns_lookup (ns_bump ns node) m = ns_lookup ns m) := by
  constructor
  · intro hne
    simp [node_scan_insert_check, h, hne]
  · intro he
    subst he
    exact ⟨by simp [node_scan_insert_check, h],
      ns_lookup_bump_self ns node v h,
      fun m hm => ns_lookup_bump_other ns node m hm⟩

theorem node_scan_insert_spec_witness :
    node_scan_insert_check [(4, 10)] 4 10 = .ok [(4, 11)] ∧
    ns_lookup [(4, 11)] 4 = some 11 := by
  have h := (node_scan_insert_spec [(4, 10)] 4 10 10 rfl).2 rfl
  exact ⟨h.1, h.2.1⟩

/-- Claim C8: `commit` on a COMMITTED transaction returns true regardless of
`doThrow`; on an ABORTED transaction it returns false when `doThrow` is
false and throws `transaction_abort_exception` carrying the stored reason
when `doThrow` is true; both early paths leave the transaction unchanged. -/
theorem commit_terminal_spec (t : transaction_base) (doThrow : Bool) :
    (t.state = .TXN_COMMITED → commit_dispatch t doThrow = (t, .ok (some true))) ∧
    (t.state = .TXN_ABRT →
      commit_dispatch t false = (t, .ok (some false)) ∧
      commit_dispatch t true = (t, .error (.abort_exception t.reason))) := by
  obtain ⟨st, rsn⟩ := t
  cases st <;> simp [commit_dispatch]

theorem commit_terminal_spec_witness :
    commit_dispatch ⟨.TXN_ABRT, .ABORT_REASON_USER⟩ true =
      (⟨.TXN_ABRT, .ABORT_REASON_USER⟩, .error (.abort_exception .ABORT_REASON_USER)) :=
  ((commit_terminal_spec ⟨.TXN_ABRT, .ABORT_REASON_USER⟩ true).2 rfl).2

/-- Claim C9: `abort_impl` on an ABORTED transaction returns with state and
stored reason unchanged; on a COMMITTED transaction it throws
`transaction_unusable_exception`; on an EMBRYO or ACTIVE transaction it
transitions to ABORTED and records the supplied reason. -/
theorem abort_impl_spec (t : transaction_base) (r : abort_reason) :
    (t.state = .TXN_ABRT → abort_impl t r = .ok t) ∧
    (t.state = .TXN_COMMITED → abort_impl t r = .error .unusable_exception) ∧
    ((t.state = .TXN_EMBRYO ∨ t.state = .TXN_ACTIVE) →
      abort_impl t r = .ok { state := .TXN_ABRT, reason := r }) := by
  obtain ⟨st, rsn⟩ := t
  cases st <;> simp [abort_impl]

theorem abort_impl_spec_witness :
    abort_impl ⟨.TXN_ACTIVE, .ABORT_REASON_USER⟩ .ABORT_REASON_WRITE_NODE_INTERFERENCE =
      .ok ⟨.TXN_ABRT, .ABORT_REASON_WRITE_NODE_INTERFERENCE⟩ :=
  (abort_impl_spec ⟨.TXN_ACTIVE, .ABORT_REASON_USER⟩ _).2.2 (Or.inr rfl)

theorem key_in_range_iff (r : key_range_t) (k : Nat) :
    r.key_in_range k = true ↔ (r.a ≤ k ∧ (r.has_b = true → k < r.b)) := by
  cases hb : r.has_b <;> simp [key_range_t.key_in_range, hb]

theorem is_empty_range_false_iff (r : key_range_t) :
    r.is_empty_range = false ↔ nonempty_range r := by
  cases hb : r.has_b <;> simp [key_range_t.is_empty_range, nonempty_range, hb]

theorem empty_range_no_keys (r : key_range_t) (k : Nat)
    (h : r.is_empty_range = true) : r.key_in_range k = false := by
  simp [key_range_t.is_empty_range] at h
  simp [key_range_t.key_in_range, h.1]
  omega

theorem contains_iff (r that : key_range_t) :
    r.contains that = true ↔
      (r.a ≤ that.a ∧ (r.has_b = true → (that.has_b = true ∧ that.b ≤ r.b))) := by
  cases hb : r.has_b <;> cases htb : that.has_b <;>
    simp [key_range_t.contains, hb, htb]

theorem contains_mono (r that : key_range_t) (k : Nat)
    (hc : r.contains that = true) (hk : that.key_in_range k = true) :
    r.key_in_range k = true := by
  rw [contains_iff] at hc
  rw [key_in_range_iff] at hk ⊢
  obtain ⟨h1, h2⟩ := hc
  obtain ⟨h3, h4⟩ := hk
  refine ⟨le_trans h1 h3, fun hb => ?_⟩
  obtain ⟨h5, h6⟩ := h2 hb
  exact lt_of_lt_of_le (h4 h5) h6

theorem cmp_false_iff (k : Nat) (r : key_range_t) :
    key_range_search_less_cmp k r = false ↔ (r.has_b = true ∧ r.b ≤ k) := by
  cases hb : r.has_b <;> simp [key_range_search_less_cmp, hb]

theorem cmp_true_iff (k : Nat) (r : key_range_t) :
    key_range_search_less_cmp k r = true ↔ (r.has_b = false ∨ k < r.b) := by
  cases hb : r.has_b <;> simp [key_range_search_less_cmp, hb]

theorem covers_nil (k : Nat) : ¬ covers [] k := by
  simp [covers]

theorem covers_cons (r : key_range_t) (rs : List key_range_t) (k : Nat) :
    covers (r :: rs) k ↔ (r.key_in_range k = true ∨ covers rs k) := by
  simp [covers]

theorem covers_append (A B : List key_range_t) (k : Nat) :
    covers (A ++ B) k ↔ (covers A k ∨ covers B k) := by
  simp [covers, or_and_right, exists_or]

theorem ubSplit_append (k : Nat) (rs : List key_range_t) :
    (ubSplit k rs).1 ++ (ubSplit k rs).2 = rs := by
  induction rs with
  | nil => simp [ubSplit]
  | cons r rest ih =>
      by_cases hc : key_range_search_less_cmp k r = true
      · simp [ubSplit, hc]
      · simp only [Bool.not_eq_true] at hc
        simp [ubSplit, hc, ih]

theorem ubSplit_pre_mem (k : Nat) (rs : List key_range_t) :
    ∀ r ∈ (ubSplit k rs).1, r.has_b = true ∧ r.b ≤ k := by
  induction rs with
  | nil => simp [ubSplit]
  | cons r rest ih =>
      by_cases hc : key_range_search_less_cmp k r = true
      · simp [ubSplit, hc]
      · simp only [Bool.not_eq_true] at hc
        simp only [ubSplit, hc, Bool.false_eq_true, if_false]
        intro q hq
        rcases List.mem_cons.mp hq with hq | hq
        · rw [hq]; exact (cmp_false_iff k r).mp hc
        · exact ih q hq

theorem ubSplit_suf_head (k : Nat) (rs : List key_range_t) (it : key_range_t)
    (l : List key_range_t) (h : (ubSplit k rs).2 = it :: l) :
    it.has_b = false ∨ k < it.b := by
  induction rs with
  | nil => simp [ubSplit] at h
  | cons r rest ih =>
      by_cases hc : key_range_search_less_cmp k r = true
      · simp only [ubSplit, hc, if_true] at h
        injection h with h1 h2
        rw [← h1]
        exact (cmp_true_iff k r).mp hc
      · simp only [Bool.not_eq_true] at hc
        simp only [ubSplit, hc, Bool.false_eq_true, if_false] at h
        exact ih h

theorem range_set_ok_append_iff (A B : List key_range_t) :
    range_set_ok (A ++ B) ↔
      range_set_ok A ∧ range_set_ok B ∧
        (∀ x ∈ A.getLast?, ∀ y ∈ B.head?, range_step x y) := by
  simp only [range_set_ok, List.chain'_append, List.mem_append]
  constructor
  · rintro ⟨hne, hA, hB, hJ⟩
    exact ⟨⟨fun r hr => hne r (Or.inl hr), hA⟩, ⟨fun r hr => hne r (Or.inr hr), hB⟩, hJ⟩
  · rintro ⟨⟨hneA, hA⟩, ⟨hneB, hB⟩, hJ⟩
    exact ⟨fun r hr => hr.elim (hneA r) (hneB r), hA, hB, hJ⟩

theorem range_set_ok_cons_iff (x : key_range_t) (l : List key_range_t) :
    range_set_ok (x :: l) ↔
      nonempty_range x ∧ range_set_ok l ∧ (∀ y ∈ l.head?, range_step x y) := by
  simp only [range_set_ok, List.chain'_cons', List.mem_cons]
  constructor
  · rintro ⟨hne, hJ, hl⟩
    exact ⟨hne x (Or.inl rfl), ⟨fun r hr => hne r (Or.inr hr), hl⟩, hJ⟩
  · rintro ⟨hx, ⟨hne, hl⟩, hJ⟩
    exact ⟨fun r hr => hr.elim (fun h => h ▸ hx) (hne r), hJ, hl⟩

theorem range_set_strict_imp_ok (rs : List key_range_t) (h : range_set_strict rs) :
    range_set_ok rs :=
  ⟨h.1, h.2.imp fun _ _ hs => ⟨hs.1, le_of_lt hs.2⟩⟩

theorem range_set_strict_append_iff (A B : List key_range_t) :
    range_set_strict (A ++ B) ↔
      range_set_strict A ∧ range_set_strict B ∧
        (∀ x ∈ A.getLast?, ∀ y ∈ B.head?, range_step_strict x y) := by
  simp only [range_set_strict, List.chain'_append, List.mem_append]
  constructor
  · rintro ⟨hne, hA, hB, hJ⟩
    exact ⟨⟨fun r hr => hne r (Or.inl hr), hA⟩, ⟨fun r hr => hne r (Or.inr hr), hB⟩, hJ⟩
  · rintro ⟨⟨hneA, hA⟩, ⟨hneB, hB⟩, hJ⟩
    exact ⟨fun r hr => hr.elim (hneA r) (hneB r), hA, hB, hJ⟩

theorem range_set_strict_cons_iff (x : key_range_t) (l : List key_range_t) :
    range_set_strict (x :: l) ↔
      nonempty_range x ∧ range_set_strict l ∧ (∀ y ∈ l.head?, range_step_strict x y) := by
  simp only [range_set_strict, List.chain'_cons', List.mem_cons]
  constructor
  · rintro ⟨hne, hJ, hl⟩
    exact ⟨hne x (Or.inl rfl), ⟨fun r hr => hne r (Or.inr hr), hl⟩, hJ⟩
  · rintro ⟨hx, ⟨hne, hl⟩, hJ⟩
    exact ⟨fun r hr => hr.elim (fun h => h ▸ hx) (hne r), hJ, hl⟩

theorem chain_ok_head_le (x : key_range_t) (l : List key_range_t)
    (h : range_set_ok (x :: l)) : ∀ r ∈ l, x.has_b = true ∧ x.b ≤ r.a := by
  induction l generalizing x with
  | nil => simp
  | cons y rest ih =>
      obtain ⟨hx, hok, hJ⟩ := (range_set_ok_cons_iff x (y :: rest)).mp h
      have hstep : range_step x y := hJ y (by simp)
      intro r hr
      rcases List.mem_cons.mp hr with hr | hr
      · exact hr ▸ hstep
      · obtain ⟨hyb, hyle⟩ := ih y hok r hr
        have hy : nonempty_range y := ((range_set_ok_cons_iff y rest).mp hok).1
        exact ⟨hstep.1, le_trans hstep.2 (le_trans (le_of_lt (hy hyb)) hyle)⟩

theorem range_set_ok_pairwise (rs : List key_range_t) (h : range_set_ok rs) :
    rs.Pairwise (fun r1 r2 => r1.a < r2.a ∧
      ∀ k, ¬(r1.key_in_range k = true ∧ r2.key_in_range k = true)) := by
  induction rs with
  | nil => exact List.Pairwise.nil
  | cons x l ih =>
      have hx : nonempty_range x := ((range_set_ok_cons_iff x l).mp h).1
      have hok : range_set_ok l := ((range_set_ok_cons_iff x l).mp h).2.1
      refine List.Pairwise.cons (fun r hr => ?_) (ih hok)
      obtain ⟨hxb, hxle⟩ := chain_ok_head_le x l h r hr
      have hxab : x.a < x.b := hx hxb
      refine ⟨lt_of_lt_of_le hxab hxle, fun k ⟨h1, h2⟩ => ?_⟩
      rw [key_in_range_iff] at h1 h2
      have := h1.2 hxb
      have := h2.1
      omega

theorem dropWhile_head_false {p : key_range_t → Bool} {l : List key_range_t}
    {x : key_range_t} {xs : List key_range_t}
    (h : l.dropWhile p = x :: xs) : p x = false := by
  induction l with
  | nil => simp [List.dropWhile] at h
  | cons y rest ih =>
      by_cases hy : p y = true
      · rw [List.dropWhile_cons_of_pos hy] at h
        exact ih h
      · rw [List.dropWhile_cons_of_neg hy] at h
        injection h with h1 h2
        subst h1
        exact Bool.not_eq_true _ ▸ (by simpa using hy)

theorem covers_of_mem {rs : List key_range_t} {r : key_range_t} {k : Nat}
    (hm : r ∈ rs) (hk : r.key_in_range k = true) : covers rs k :=
  ⟨r, hm, hk⟩

theorem scan_pred_true_iff (range r : key_range_t) :
    (!(decide (range.b ≤ r.a) || !r.has_b || decide (range.b ≤ r.b))) = true ↔
      (r.a < range.b ∧ r.has_b = true ∧ r.b < range.b) := by
  cases hb : r.has_b with
  | false => simp [hb]
  | true => simp [hb]

theorem scan_pred_false_iff (range r : key_range_t) :
    (!(decide (range.b ≤ r.a) || !r.has_b || decide (range.b ≤ r.b))) = false ↔
      (range.b ≤ r.a ∨ r.has_b = false ∨ range.b ≤ r.b) := by
  cases hb : r.has_b with
  | false => simp [hb]
  | true => simp [hb]; omega

theorem add_main_spec (range : key_range_t) (newpre : List key_range_t) (left_key : Nat)
    (it : key_range_t) (stail : List key_range_t) (dropped0 : List key_range_t)
    (hrange : nonempty_range range)
    (hitc : it.has_b = false ∨ range.a < it.b)
    (hokit : range_set_ok (it :: stail))
    (hlk_a : left_key ≤ range.a)
    (hlk_it : left_key ≤ it.a)
    (hgap : ∀ k, left_key ≤ k → k < it.a → k < range.a → covers dropped0 k)
    (hdrop0 : ∀ k, covers dropped0 k → (left_key ≤ k ∧ k < range.a)) :
    ∃ dropped1 kept nr,
      add_main range newpre left_key it stail = newpre ++ nr :: kept ∧
      it :: stail = dropped1 ++ kept ∧
      nonempty_range nr ∧
      nr.a = left_key ∧
      (∀ y ∈ kept.head?, range_step nr y) ∧
      nr.contains range = true ∧
      (∀ k, nr.key_in_range k = true ↔
        (covers dropped0 k ∨ covers dropped1 k ∨ range.key_in_range k = true)) ∧
      (range_set_strict (it :: stail) → ∀ y ∈ kept.head?, nr.b < y.a) := by
  have hit_ne : nonempty_range it := ((range_set_ok_cons_iff it stail).mp hokit).1
  have hchain : ∀ r ∈ stail, it.has_b = true ∧ it.b ≤ r.a := chain_ok_head_le it stail hokit
  unfold add_main
  by_cases hrb : range.has_b = true
  · rw [if_pos hrb]
    have hab : range.a < range.b := hrange hrb
    by_cases hA : (!it.has_b || decide (range.b ≤ it.b)) = true
    · rw [if_pos hA]
      have hAiff : it.has_b = false ∨ range.b ≤ it.b := by
        cases hb : it.has_b with
        | false => exact Or.inl rfl
        | true => simp [hb] at hA; exact Or.inr hA
      by_cases hlt : range.b < it.a
      · rw [if_pos hlt]
        refine ⟨[], it :: stail, ⟨left_key, true, range.b⟩, rfl, rfl,
          fun _ => by dsimp only; omega, rfl, ?_, ?_, ?_, ?_⟩
        · intro y hy
          simp only [List.head?_cons, Option.mem_def, Option.some.injEq] at hy
          rw [← hy]
          exact ⟨rfl, by dsimp only; omega⟩
        · rw [contains_iff]
          exact ⟨hlk_a, fun _ => ⟨hrb, le_refl _⟩⟩
        · intro k
          rw [key_in_range_iff]
          dsimp only
          constructor
          · rintro ⟨h1, h2⟩
            have h2' := h2 rfl
            by_cases hk : k < range.a
            · exact Or.inl (hgap k h1 (by omega) hk)
            · refine Or.inr (Or.inr ?_)
              rw [key_in_range_iff]
              exact ⟨by omega, fun _ => by simpa using h2'⟩
          · rintro (h | h | h)
            · obtain ⟨hk1, hk2⟩ := hdrop0 k h
              exact ⟨hk1, fun _ => by omega⟩
            · exact absurd h (covers_nil k)
            · rw [key_in_range_iff] at h
              obtain ⟨h1, h2⟩ := h
              have := h2 hrb
              exact ⟨by omega, fun _ => by omega⟩
        · intro hs y hy
          simp only [List.head?_cons, Option.mem_def, Option.some.injEq] at hy
          rw [← hy]
          dsimp only
          omega
      · rw [if_neg hlt]
        push_neg at hlt
        refine ⟨[it], stail, ⟨left_key, it.has_b, it.b⟩, rfl, rfl, ?_, rfl, ?_, ?_, ?_, ?_⟩
        · intro hb
          dsimp only at hb
          rcases hitc with h | h
          · rw [h] at hb; exact absurd hb (by simp)
          · dsimp only
            omega
        · intro y hy
          exact ((range_set_ok_cons_iff it stail).mp hokit).2.2 y hy
        · rw [contains_iff]
          refine ⟨hlk_a, fun hb => ⟨hrb, ?_⟩⟩
          dsimp only at hb
          rcases hAiff with h | h
          · rw [h] at hb; exact absurd hb (by simp)
          · exact h
        · intro k
          rw [key_in_range_iff]
          dsimp only
          constructor
          · rintro ⟨h1, h2⟩
            by_cases hk1 : k < range.a
            · by_cases hk2 : k < it.a
              · exact Or.inl (hgap k h1 hk2 hk1)
              · refine Or.inr (Or.inl ⟨it, by simp, ?_⟩)
                rw [key_in_range_iff]
                exact ⟨by omega, h2⟩
            · by_cases hk3 : k < range.b
              · refine Or.inr (Or.inr ?_)
                rw [key_in_range_iff]
                exact ⟨by omega, fun _ => hk3⟩
              · refine Or.inr (Or.inl ⟨it, by simp, ?_⟩)
                rw [key_in_range_iff]
                exact ⟨by omega, h2⟩
          · rintro (h | h | h)
            · obtain ⟨hk1, hk2⟩ := hdrop0 k h
              refine ⟨hk1, fun hb => ?_⟩
              rcases hitc with hcc | hcc
              · rw [hcc] at hb; exact absurd hb (by simp)
              · omega
            · obtain ⟨r, hr, hrk⟩ := h
              rw [List.mem_singleton] at hr
              subst hr
              rw [key_in_range_iff] at hrk
              exact ⟨le_trans hlk_it hrk.1, hrk.2⟩
            · rw [key_in_range_iff] at h
              refine ⟨by omega, fun hb => ?_⟩
              rcases hAiff with hcc | hcc
              · rw [hcc] at hb; exact absurd hb (by simp)
              · have := h.2 hrb
                omega
        · intro hs y hy
          exact (((range_set_strict_cons_iff it stail).mp hs).2.2 y hy).2
    · rw [if_neg hA]
      have hitb : it.has_b = true ∧ it.b < range.b := by
        cases hb : it.has_b with
        | false => simp [hb] at hA
        | true => simp [hb] at hA; exact ⟨rfl, by omega⟩
      have hait : range.a < it.b := by
        rcases hitc with h | h
        · rw [h] at hitb; exact absurd hitb.1 (by simp)
        · exact h
      set p : key_range_t → Bool :=
        fun r => !(decide (range.b ≤ r.a) || !r.has_b || decide (range.b ≤ r.b)) with hp
      have htw : ∀ r ∈ stail.takeWhile p, r.a < range.b ∧ r.has_b = true ∧ r.b < range.b := by
        intro r hr
        have hpr := List.mem_takeWhile_imp hr
        rw [hp] at hpr
        exact (scan_pred_true_iff range r).mp hpr
      have hsw := List.takeWhile_append_dropWhile p stail
      cases hdw : stail.dropWhile p with
      | nil =>
          rw [hdw, List.append_nil] at hsw
          refine ⟨it :: stail, [], ⟨left_key, true, range.b⟩, rfl, by simp,
            fun _ => by dsimp only; omega, rfl, by intro y hy; simp at hy, ?_, ?_,
            by intro hs y hy; simp at hy⟩
          · rw [contains_iff]
            exact ⟨hlk_a, fun _ => ⟨hrb, le_refl _⟩⟩
          · intro k
            rw [key_in_range_iff]
            dsimp only
            constructor
            · rintro ⟨h1, h2⟩
              have h2' := h2 rfl
              simp only at h2'
              by_cases hk1 : k < range.a
              · by_cases hk2 : k < it.a
                · exact Or.inl (hgap k h1 hk2 hk1)
                · refine Or.inr (Or.inl ⟨it, by simp, ?_⟩)
                  rw [key_in_range_iff]
                  exact ⟨by omega, fun _ => by omega⟩
              · refine Or.inr (Or.inr ?_)
                rw [key_in_range_iff]
                exact ⟨by omega, fun _ => h2'⟩
            · rintro (h | h | h)
              · obtain ⟨hk1, hk2⟩ := hdrop0 k h
                exact ⟨hk1, fun _ => by omega⟩
              · obtain ⟨r, hr, hrk⟩ := h
                rw [key_in_range_iff] at hrk
                rcases List.mem_cons.mp hr with hr | hr
                · subst hr
                  have := hrk.2 hitb.1
                  exact ⟨by omega, fun _ => by omega⟩
                · have hrtw : r ∈ List.takeWhile p stail := by rw [hsw]; exact hr
                  obtain ⟨hr1, hr2, hr3⟩ := htw r hrtw
                  obtain ⟨-, hlb⟩ := hchain r hr
                  have := hrk.2 hr2
                  have hitab : it.a < it.b := hit_ne hitb.1
                  exact ⟨by omega, fun _ => by omega⟩
              · rw [key_in_range_iff] at h
                have := h.2 hrb
                exact ⟨by omega, fun _ => by omega⟩
      | cons it1 tail1 =>
          rw [hdw] at hsw
          have hp1 : p it1 = false := dropWhile_head_false hdw
          rw [hp] at hp1
          have hp1' := (scan_pred_false_iff range it1).mp hp1
          have hsw' : stail = stail.takeWhile p ++ it1 :: tail1 := hsw.symm
          have hok1 : range_set_ok (it1 :: tail1) := by
            have hx : range_set_ok ((it :: stail.takeWhile p) ++ (it1 :: tail1)) := by
              rw [List.cons_append, ← hsw']
              exact hokit
            exact ((range_set_ok_append_iff _ _).mp hx).2.1
          have hit1_ne : nonempty_range it1 := ((range_set_ok_cons_iff it1 tail1).mp hok1).1
          have hit1_mem : it1 ∈ stail := by
            rw [hsw']
            exact List.mem_append_right _ (by simp)
          have hit1_lb : it.b ≤ it1.a := (hchain it1 hit1_mem).2
          have hitab : it.a < it.b := hit_ne hitb.1
          have hrble : it1.has_b = true → range.b ≤ it1.b := by
            intro hb
            rcases hp1' with h | h | h
            · have := hit1_ne hb; omega
            · rw [h] at hb; exact absurd hb (by simp)
            · exact h
          dsimp only
          by_cases hle : it1.a ≤ range.b
          · rw [if_pos hle]
            refine ⟨it :: (stail.takeWhile p ++ [it1]), tail1,
              ⟨left_key, it1.has_b, it1.b⟩, rfl, ?_, ?_, rfl, ?_, ?_, ?_, ?_⟩
            · rw [List.cons_append, List.append_assoc, List.singleton_append, hsw]
            · intro hb
              dsimp only at hb
              have := hrble hb
              dsimp only
              omega
            · intro y hy
              exact ((range_set_ok_cons_iff it1 tail1).mp hok1).2.2 y hy
            · rw [contains_iff]
              exact ⟨hlk_a, fun hb => ⟨hrb, hrble (by simpa using hb)⟩⟩
            · intro k
              rw [key_in_range_iff]
              dsimp only
              constructor
              · rintro ⟨h1, h2⟩
                by_cases hk1 : k < range.a
                · by_cases hk2 : k < it.a
                  · exact Or.inl (hgap k h1 hk2 hk1)
                  · refine Or.inr (Or.inl ⟨it, by simp, ?_⟩)
                    rw [key_in_range_iff]
                    exact ⟨by omega, fun _ => by omega⟩
                · by_cases hk3 : k < range.b
                  · refine Or.inr (Or.inr ?_)
                    rw [key_in_range_iff]
                    exact ⟨by omega, fun _ => hk3⟩
                  · refine Or.inr (Or.inl ⟨it1, by simp, ?_⟩)
                    rw [key_in_range_iff]
                    exact ⟨by omega, h2⟩
              · rintro (h | h | h)
                · obtain ⟨hk1, hk2⟩ := hdrop0 k h
                  refine ⟨hk1, fun hb => ?_⟩
                  have := hrble hb
                  omega
                · obtain ⟨r, hr, hrk⟩ := h
                  rw [key_in_range_iff] at hrk
                  rcases List.mem_cons.mp hr with hr | hr
                  · subst hr
                    have := hrk.2 hitb.1
                    refine ⟨by omega, fun hb => ?_⟩
                    have := hrble hb
                    omega
                  · rcases List.mem_append.mp hr with hr | hr
                    · obtain ⟨hr1, hr2, hr3⟩ := htw r hr
                      obtain ⟨-, hlb⟩ := hchain r (by rw [hsw']; exact List.mem_append_left _ hr)
                      have := hrk.2 hr2
                      refine ⟨by omega, fun hb => ?_⟩
                      have := hrble hb
                      omega
                    · rw [List.mem_singleton] at hr
                      subst hr
                      exact ⟨by omega, hrk.2⟩
                · rw [key_in_range_iff] at h
                  have := h.2 hrb
                  refine ⟨by omega, fun hb => ?_⟩
                  have := hrble hb
                  omega
            · intro hs y hy
              have hx : range_set_strict ((it :: stail.takeWhile p) ++ (it1 :: tail1)) := by
                rw [List.cons_append, ← hsw']
                exact hs
              have hs1 := ((range_set_strict_append_iff _ _).mp hx).2.1
              exact (((range_set_strict_cons_iff it1 tail1).mp hs1).2.2 y hy).2
          · rw [if_neg hle]
            push_neg at hle
            refine ⟨it :: stail.takeWhile p, it1 :: tail1, ⟨left_key, true, range.b⟩,
              rfl, ?_, fun _ => by dsimp only; omega, rfl, ?_, ?_, ?_, ?_⟩
            · rw [List.cons_append, hsw]
            · intro y hy
              simp only [List.head?_cons, Option.mem_def, Option.some.injEq] at hy
              rw [← hy]
              exact ⟨rfl, by dsimp only; omega⟩
            · rw [contains_iff]
              exact ⟨hlk_a, fun _ => ⟨hrb, le_refl _⟩⟩
            · intro k
              rw [key_in_range_iff]
              dsimp only
              constructor
              · rintro ⟨h1, h2⟩
                have h2' := h2 rfl
                simp only at h2'
                by_cases hk1 : k < range.a
                · by_cases hk2 : k < it.a
                  · exact Or.inl (hgap k h1 hk2 hk1)
                  · refine Or.inr (Or.inl ⟨it, by simp, ?_⟩)
                    rw [key_in_range_iff]
                    exact ⟨by omega, fun _ => by omega⟩
                · refine Or.inr (Or.inr ?_)
                  rw [key_in_range_iff]
                  exact ⟨by omega, fun _ => h2'⟩
              · rintro (h | h | h)
                · obtain ⟨hk1, hk2⟩ := hdrop0 k h
                  exact ⟨hk1, fun _ => by omega⟩
                · obtain ⟨r, hr, hrk⟩ := h
                  rw [key_in_range_iff] at hrk
                  rcases List.mem_cons.mp hr with hr | hr
                  · subst hr
                    have := hrk.2 hitb.1
                    exact ⟨by omega, fun _ => by omega⟩
                  · obtain ⟨hr1, hr2, hr3⟩ := htw r hr
                    obtain ⟨-, hlb⟩ := hchain r (by rw [hsw']; exact List.mem_append_left _ hr)
                    have := hrk.2 hr2
                    exact ⟨by omega, fun _ => by omega⟩
                · rw [key_in_range_iff] at h
                  have := h.2 hrb
                  exact ⟨by omega, fun _ => by omega⟩
            · intro hs y hy
              simp only [List.head?_cons, Option.mem_def, Option.some.injEq] at hy
              rw [← hy]
              dsimp only
              omega
  · rw [if_neg hrb]
    have hrb' : range.has_b = false := by
      cases hb : range.has_b
      · rfl
      · exact absurd hb hrb
    refine ⟨it :: stail, [], ⟨left_key, false, 0⟩, rfl, by simp,
      fun hb => by simp at hb, rfl, by intro y hy; simp at hy, ?_, ?_,
      by intro hs y hy; simp at hy⟩
    · rw [contains_iff]
      exact ⟨hlk_a, fun hb => by simp at hb⟩
    · intro k
      rw [key_in_range_iff]
      dsimp only
      constructor
      · rintro ⟨h1, -⟩
        by_cases hk1 : k < range.a
        · by_cases hk2 : k < it.a
          · exact Or.inl (hgap k h1 hk2 hk1)
          · refine Or.inr (Or.inl ⟨it, by simp, ?_⟩)
            rw [key_in_range_iff]
            refine ⟨by omega, fun hb => ?_⟩
            rcases hitc with hcc | hcc
            · rw [hcc] at hb; exact absurd hb (by simp)
            · omega
        · refine Or.inr (Or.inr ?_)
          rw [key_in_range_iff]
          exact ⟨by omega, fun hb => by rw [hrb'] at hb; exact absurd hb (by simp)⟩
      · rintro (h | h | h)
        · exact ⟨(hdrop0 k h).1, fun hb => by simp at hb⟩
        · obtain ⟨r, hr, hrk⟩ := h
          rw [key_in_range_iff] at hrk
          rcases List.mem_cons.mp hr with hr | hr
          · subst hr
            exact ⟨by omega, fun hb => by simp at hb⟩
          · obtain ⟨hhb, hlb⟩ := hchain r hr
            have hitab : it.a < it.b := hit_ne hhb
            have := hrk.1
            exact ⟨by omega, fun hb => by simp at hb⟩
        · rw [key_in_range_iff] at h
          exact ⟨by omega, fun hb => by simp at hb⟩

theorem contains_self (r : key_range_t) : r.contains r = true := by
  rw [contains_iff]
  exact ⟨le_refl _, fun hb => ⟨hb, le_refl _⟩⟩

theorem eq_nil_or_concat_ranges (l : List key_range_t) :
    l = [] ∨ ∃ L b, l = L ++ [b] := by
  rcases List.eq_nil_or_concat l with h | ⟨L, b, h⟩
  · exact Or.inl h
  · exact Or.inr ⟨L, b, by simpa using h⟩

theorem covers_singleton (x : key_range_t) (k : Nat) :
    covers [x] k ↔ x.key_in_range k = true := by
  simp [covers]

theorem add_absent_range_cases (rs : List key_range_t) (range : key_range_t)
    (hok : range_set_ok rs) (hne : range.is_empty_range = false) :
    (∃ r ∈ rs, r.contains range = true ∧ add_absent_range rs range = rs) ∨
    (∃ newpre dropped kept nr,
      add_absent_range rs range = newpre ++ nr :: kept ∧
      rs = newpre ++ (dropped ++ kept) ∧
      nonempty_range nr ∧
      (∀ x ∈ newpre.getLast?, range_step x nr) ∧
      (∀ y ∈ kept.head?, range_step nr y) ∧
      nr.contains range = true ∧
      (∀ k, nr.key_in_range k = true ↔ (covers dropped k ∨ range.key_in_range k = true)) ∧
      (range_set_strict rs →
        (∀ x ∈ newpre.getLast?, x.b < nr.a) ∧ (∀ y ∈ kept.head?, nr.b < y.a))) := by
  have hrange : nonempty_range range := (is_empty_range_false_iff range).mp hne
  have hsplit := ubSplit_append range.a rs
  have hpre := ubSplit_pre_mem range.a rs
  unfold add_absent_range
  rw [if_neg (by simp [hne])]
  rcases hub : ubSplit range.a rs with ⟨pre, suf⟩
  rw [hub] at hsplit hpre
  simp only at hsplit hpre
  cases suf with
  | nil =>
      dsimp only
      rw [List.append_nil] at hsplit
      subst hsplit
      rcases eq_nil_or_concat_ranges pre with rfl | ⟨L, last, rfl⟩
      · refine Or.inr ⟨[], [], [], range, rfl, rfl, hrange, by simp, by simp,
          contains_self range, fun k => ?_, ?_⟩
        · constructor
          · intro h
            exact Or.inr h
          · rintro (h | h)
            · exact absurd h (covers_nil k)
            · exact h
        · intro hs
          exact ⟨by intro x hx; simp at hx, by intro y hy; simp at hy⟩
      · simp only [List.getLast?_concat]
        have hlast := hpre last (by simp)
        have hlast_ne : nonempty_range last := hok.1 last (by simp)
        have hlab : last.a < last.b := hlast_ne hlast.1
        obtain ⟨hokL, hoklast, hJL⟩ := (range_set_ok_append_iff L [last]).mp hok
        by_cases hm : last.b = range.a
        · rw [if_pos hm]
          rw [List.dropLast_concat]
          refine Or.inr ⟨L, [last], [], ⟨last.a, range.has_b, range.b⟩, rfl, by simp,
            ?_, ?_, by simp, ?_, fun k => ?_, ?_⟩
          · intro hb
            dsimp only at hb ⊢
            have := hrange hb
            omega
          · intro x hx
            exact hJL x hx last (by simp)
          · rw [contains_iff]
            dsimp only
            exact ⟨by omega, fun hb => ⟨hb, le_refl _⟩⟩
          · rw [key_in_range_iff]
            dsimp only
            rw [covers_singleton]
            rw [key_in_range_iff range k, key_in_range_iff last k]
            constructor
            · rintro ⟨h1, h2⟩
              by_cases hk : k < range.a
              · exact Or.inl ⟨h1, fun _ => by omega⟩
              · exact Or.inr ⟨by omega, h2⟩
            · rintro (⟨h1, h2⟩ | ⟨h1, h2⟩)
              · have h3 := h2 hlast.1
                exact ⟨h1, fun hb => by have := hrange hb; omega⟩
              · exact ⟨by omega, h2⟩
          · intro hs
            refine ⟨?_, by intro y hy; simp at hy⟩
            intro x hx
            have hsx := ((range_set_strict_append_iff L [last]).mp hs).2.2 x hx last (by simp)
            exact hsx.2
        · rw [if_neg hm]
          refine Or.inr ⟨L ++ [last], [], [], range, rfl, by simp, hrange, ?_,
            by simp, contains_self range, fun k => ?_, ?_⟩
          · intro x hx
            rw [List.getLast?_concat] at hx
            simp only [Option.mem_def, Option.some.injEq] at hx
            rw [← hx]
            exact ⟨hlast.1, hlast.2⟩
          · constructor
            · intro h
              exact Or.inr h
            · rintro (h | h)
              · exact absurd h (covers_nil k)
              · exact h
          · intro hs
            refine ⟨?_, by intro y hy; simp at hy⟩
            intro x hx
            rw [List.getLast?_concat] at hx
            simp only [Option.mem_def, Option.some.injEq] at hx
            rw [← hx]
            have h1 := hlast.2
            omega
  | cons it stail =>
      dsimp only
      have hok2 : range_set_ok (pre ++ it :: stail) := by rw [hsplit]; exact hok
      obtain ⟨hokpre, hokit, hjunc⟩ := (range_set_ok_append_iff pre (it :: stail)).mp hok2
      have hitc : it.has_b = false ∨ range.a < it.b :=
        ubSplit_suf_head range.a rs it stail (by rw [hub])
      have hit_ne : nonempty_range it := hokit.1 it (by simp)
      by_cases hcont : it.contains range = true
      · rw [if_pos hcont]
        exact Or.inl ⟨it, by rw [← hsplit]; simp, hcont, rfl⟩
      · rw [if_neg hcont]
        rcases eq_nil_or_concat_ranges pre with rfl | ⟨L, prev, rfl⟩
        · obtain ⟨dropped1, kept, nr, heq, hsplit1, hne1, hnra, hkj, hcont1, hcov, hstr1⟩ :=
            add_main_spec range ([] : List key_range_t) (min it.a range.a) it stail []
              hrange hitc hokit (min_le_right _ _) (min_le_left _ _)
              (fun k h1 h2 h3 => absurd h1 (by omega))
              (fun k h => absurd h (covers_nil k))
          refine Or.inr ⟨[], dropped1, kept, nr, heq, ?_, hne1, by simp, hkj, hcont1,
            fun k => ?_, ?_⟩
          · rw [← hsplit, hsplit1]
          · rw [hcov k]
            constructor
            · rintro (h | h | h)
              · exact absurd h (covers_nil k)
              · exact Or.inl h
              · exact Or.inr h
            · rintro (h | h)
              · exact Or.inr (Or.inl h)
              · exact Or.inr (Or.inr h)
          · intro hs
            refine ⟨by intro x hx; simp at hx, ?_⟩
            have hs2 : range_set_strict (it :: stail) := by
              have h := hs
              rw [← hsplit] at h
              simpa using h
            exact hstr1 hs2
        · simp only [List.getLast?_concat]
          have hprev := hpre prev (by simp)
          have hprev_ne : nonempty_range prev := hokpre.1 prev (by simp)
          have hpab : prev.a < prev.b := hprev_ne hprev.1
          have hprev_it : range_step prev it := hjunc prev (by simp) it rfl
          obtain ⟨hokL, hokprev, hJL⟩ := (range_set_ok_append_iff L [prev]).mp hokpre
          by_cases hm : prev.b = range.a
          · rw [if_pos hm]
            rw [List.dropLast_concat]
            obtain ⟨dropped1, kept, nr, heq, hsplit1, hne1, hnra, hkj, hcont1, hcov, hstr1⟩ :=
              add_main_spec range L prev.a it stail [prev]
                hrange hitc hokit (by omega) (by have := hprev_it.2; omega)
                (fun k h1 h2 h3 => ⟨prev, by simp,
                  by rw [key_in_range_iff]; exact ⟨h1, fun _ => by omega⟩⟩)
                (fun k h => by
                  obtain ⟨r, hr, hrk⟩ := h
                  rw [List.mem_singleton] at hr
                  subst hr
                  rw [key_in_range_iff] at hrk
                  exact ⟨hrk.1, by have := hrk.2 hprev.1; omega⟩)
            refine Or.inr ⟨L, prev :: dropped1, kept, nr, heq, ?_, hne1, ?_, hkj, hcont1,
              fun k => ?_, ?_⟩
            · rw [← hsplit, hsplit1]
              simp
            · intro x hx
              have hxp := hJL x hx prev (by simp)
              refine ⟨hxp.1, ?_⟩
              rw [hnra]
              exact hxp.2
            · rw [hcov k, covers_singleton, covers_cons]
              tauto
            · intro hs
              have hsA : range_set_strict ((L ++ [prev]) ++ (it :: stail)) := by
                have h := hs
                rw [← hsplit] at h
                exact h
              obtain ⟨hsPre, hsIt, -⟩ := (range_set_strict_append_iff _ _).mp hsA
              constructor
              · intro x hx
                have hsx := ((range_set_strict_append_iff L [prev]).mp hsPre).2.2 x hx prev (by simp)
                rw [hnra]
                exact hsx.2
              · exact hstr1 hsIt
          · rw [if_neg hm]
            obtain ⟨dropped1, kept, nr, heq, hsplit1, hne1, hnra, hkj, hcont1, hcov, hstr1⟩ :=
              add_main_spec range (L ++ [prev]) (min it.a range.a) it stail []
                hrange hitc hokit (min_le_right _ _) (min_le_left _ _)
                (fun k h1 h2 h3 => absurd h1 (by omega))
                (fun k h => absurd h (covers_nil k))
            refine Or.inr ⟨L ++ [prev], dropped1, kept, nr, heq, ?_, hne1, ?_, hkj, hcont1,
              fun k => ?_, ?_⟩
            · rw [← hsplit, hsplit1]
            · intro x hx
              rw [List.getLast?_concat] at hx
              simp only [Option.mem_def, Option.some.injEq] at hx
              rw [← hx]
              refine ⟨hprev.1, ?_⟩
              rw [hnra]
              exact le_min hprev_it.2 hprev.2
            · rw [hcov k]
              constructor
              · rintro (h | h | h)
                · exact absurd h (covers_nil k)
                · exact Or.inl h
                · exact Or.inr h
              · rintro (h | h)
                · exact Or.inr (Or.inl h)
                · exact Or.inr (Or.inr h)
            · intro hs
              have hsA : range_set_strict ((L ++ [prev]) ++ (it :: stail)) := by
                have h := hs
                rw [← hsplit] at h
                exact h
              obtain ⟨hsPre, hsIt, hsJ⟩ := (range_set_strict_append_iff _ _).mp hsA
              constructor
              · intro x hx
                rw [List.getLast?_concat] at hx
                simp only [Option.mem_def, Option.some.injEq] at hx
                rw [← hx, hnra]
                have h1 : range_step_strict prev it := hsJ prev (by simp) it rfl
                exact lt_min h1.2 (by omega)
              · exact hstr1 hsIt

theorem aar_empty_noop (rs : List key_range_t) (range : key_range_t)
    (hemp : range.is_empty_range = true) : add_absent_range rs range = rs := by
  unfold add_absent_range
  rw [if_pos hemp]

theorem aar_ok (rs : List key_range_t) (range : key_range_t) (hok : range_set_ok rs) :
    range_set_ok (add_absent_range rs range) := by
  by_cases hemp : range.is_empty_range = true
  · rw [aar_empty_noop rs range hemp]
    exact hok
  · have hne : range.is_empty_range = false := by
      cases h : range.is_empty_range
      · rfl
      · exact absurd h hemp
    rcases add_absent_range_cases rs range hok hne with ⟨r, hr, hc, heq⟩ |
      ⟨newpre, dropped, kept, nr, heq, hrs, hnemp, hj1, hj2, hcont, hcov, hstr⟩
    · rw [heq]
      exact hok
    · rw [heq]
      have hok2 : range_set_ok (newpre ++ (dropped ++ kept)) := by rw [← hrs]; exact hok
      obtain ⟨hoknp, hokdk, -⟩ := (range_set_ok_append_iff _ _).mp hok2
      obtain ⟨-, hokk, -⟩ := (range_set_ok_append_iff _ _).mp hokdk
      rw [range_set_ok_append_iff]
      refine ⟨hoknp, ?_, ?_⟩
      · rw [range_set_ok_cons_iff]
        exact ⟨hnemp, hokk, hj2⟩
      · intro x hx y hy
        simp only [List.head?_cons, Option.mem_def, Option.some.injEq] at hy
        rw [← hy]
        exact hj1 x hx

theorem aar_covers (rs : List key_range_t) (range : key_range_t) (hok : range_set_ok rs)
    (k : Nat) :
    covers (add_absent_range rs range) k ↔ (covers rs k ∨ range.key_in_range k = true) := by
  by_cases hemp : range.is_empty_range = true
  · rw [aar_empty_noop rs range hemp]
    have := empty_range_no_keys range k hemp
    constructor
    · exact Or.inl
    · rintro (h | h)
      · exact h
      · rw [this] at h
        exact absurd h (by simp)
  · have hne : range.is_empty_range = false := by
      cases h : range.is_empty_range
      · rfl
      · exact absurd h hemp
    rcases add_absent_range_cases rs range hok hne with ⟨r, hr, hc, heq⟩ |
      ⟨newpre, dropped, kept, nr, heq, hrs, hnemp, hj1, hj2, hcont, hcov, hstr⟩
    · rw [heq]
      constructor
      · exact Or.inl
      · rintro (h | h)
        · exact h
        · exact ⟨r, hr, contains_mono r range k hc h⟩
    · rw [heq, hrs]
      rw [covers_append, covers_cons, covers_append, covers_append, hcov k]
      tauto

theorem aar_contains_self (rs : List key_range_t) (range : key_range_t)
    (hok : range_set_ok rs) (hne : range.is_empty_range = false) :
    ∃ r ∈ add_absent_range rs range, r.contains range = true := by
  rcases add_absent_range_cases rs range hok hne with ⟨r, hr, hc, heq⟩ |
    ⟨newpre, dropped, kept, nr, heq, hrs, hnemp, hj1, hj2, hcont, hcov, hstr⟩
  · rw [heq]
    exact ⟨r, hr, hc⟩
  · rw [heq]
    exact ⟨nr, List.mem_append_right _ (by simp), hcont⟩

theorem aar_contained_noop (rs : List key_range_t) (range : key_range_t)
    (hok : range_set_ok rs) (hcont : ∃ r ∈ rs, r.contains range = true) :
    add_absent_range rs range = rs := by
  by_cases hemp : range.is_empty_range = true
  · exact aar_empty_noop rs range hemp
  · have hne : range.is_empty_range = false := by
      cases h : range.is_empty_range
      · rfl
      · exact absurd h hemp
    have hrange : nonempty_range range := (is_empty_range_false_iff range).mp hne
    obtain ⟨r, hr, hc0⟩ := hcont
    have hc := (contains_iff r range).mp hc0
    unfold add_absent_range
    rw [if_neg (by simp [hne])]
    rcases hub : ubSplit range.a rs with ⟨pre, suf⟩
    have hsplit := ubSplit_append range.a rs
    have hpre := ubSplit_pre_mem range.a rs
    rw [hub] at hsplit hpre
    simp only at hsplit hpre
    have hrnp : r ∉ pre := by
      intro hmem
      obtain ⟨hb, hble⟩ := hpre r hmem
      obtain ⟨hrb, hrble⟩ := hc.2 hb
      have := hrange hrb
      omega
    cases suf with
    | nil =>
        rw [List.append_nil] at hsplit
        rw [← hsplit] at hr
        exact absurd hr hrnp
    | cons it stail =>
        dsimp only
        rw [← hsplit] at hr
        rcases List.mem_append.mp hr with h | h
        · exact absurd h hrnp
        · rcases List.mem_cons.mp h with h | h
          · rw [← h]
            rw [if_pos hc0]
          · have hok2 : range_set_ok (pre ++ it :: stail) := by rw [hsplit]; exact hok
            obtain ⟨-, hokit, -⟩ := (range_set_ok_append_iff _ _).mp hok2
            have hch := chain_ok_head_le it stail hokit r h
            have hitc := ubSplit_suf_head range.a rs it stail (by rw [hub])
            rcases hitc with hcc | hcc
            · exact absurd hch.1 (by simp [hcc])
            · have h1 := hc.1
              have h2 := hch.2
              omega

theorem aar_idem (rs : List key_range_t) (range : key_range_t) (hok : range_set_ok rs) :
    add_absent_range (add_absent_range rs range) range = add_absent_range rs range := by
  by_cases hemp : range.is_empty_range = true
  · simp only [aar_empty_noop _ _ hemp]
  · have hne : range.is_empty_range = false := by
      cases h : range.is_empty_range
      · rfl
      · exact absurd h hemp
    exact aar_contained_noop (add_absent_range rs range) range (aar_ok rs range hok)
      (aar_contains_self rs range hok hne)

theorem aar_strict (rs : List key_range_t) (range : key_range_t)
    (hs : range_set_strict rs) : range_set_strict (add_absent_range rs range) := by
  have hok : range_set_ok rs := range_set_strict_imp_ok rs hs
  by_cases hemp : range.is_empty_range = true
  · rw [aar_empty_noop rs range hemp]
    exact hs
  · have hne : range.is_empty_range = false := by
      cases h : range.is_empty_range
      · rfl
      · exact absurd h hemp
    rcases add_absent_range_cases rs range hok hne with ⟨r, hr, hc, heq⟩ |
      ⟨newpre, dropped, kept, nr, heq, hrs, hnemp, hj1, hj2, hcont, hcov, hstr⟩
    · rw [heq]
      exact hs
    · rw [heq]
      obtain ⟨hsx, hsy⟩ := hstr hs
      have hs2 : range_set_strict (newpre ++ (dropped ++ kept)) := by
        rw [← hrs]
        exact hs
      obtain ⟨hsnp, hsdk, -⟩ := (range_set_strict_append_iff _ _).mp hs2
      obtain ⟨-, hsk, -⟩ := (range_set_strict_append_iff _ _).mp hsdk
      rw [range_set_strict_append_iff]
      refine ⟨hsnp, ?_, ?_⟩
      · rw [range_set_strict_cons_iff]
        refine ⟨hnemp, hsk, ?_⟩
        intro y hy
        exact ⟨(hj2 y hy).1, hsy y hy⟩
      · intro x hx y hy
        simp only [List.head?_cons, Option.mem_def, Option.some.injEq] at hy
        rw [← hy]
        exact ⟨(hj1 x hx).1, hsx x hx⟩

/-- Claim C6: for every absent_range_set satisfying the sorted-disjoint
invariant and every range argument, `add_absent_range` preserves the
invariant (the result is sorted by lower bound with pairwise-disjoint
ranges); an empty range (`lo = hi` with an upper bound) and a range fully
contained in an existing range leave the set unchanged; coalescing preserves
exactly the covered keys; a non-empty inserted range ends up contained in a
single range of the result; and left-adjacent and overlapping ranges are
merged into one: a fully-coalesced set (no touching pair of ranges) stays
fully coalesced, so an inserted range that is left-adjacent to or overlaps
an existing range can never remain a separate entry, and the two
left-adjacency code paths (`back().b == range.a` at the end of the vector,
`merge_left` in the middle) are exhibited concretely. -/
theorem add_absent_range_spec (rs : List key_range_t) (range : key_range_t)
    (hok : range_set_ok rs) :
    range_set_ok (add_absent_range rs range) ∧
    (add_absent_range rs range).Pairwise (fun r1 r2 => r1.a < r2.a ∧
      ∀ k, ¬(r1.key_in_range k = true ∧ r2.key_in_range k = true)) ∧
    (range.has_b = true → range.a = range.b → add_absent_range rs range = rs) ∧
    ((∃ r ∈ rs, r.contains range = true) → add_absent_range rs range = rs) ∧
    (∀ k, covers (add_absent_range rs range) k ↔
      (covers rs k ∨ range.key_in_range k = true)) ∧
    (range.is_empty_range = false →
      ∃ r ∈ add_absent_range rs range, r.contains range = true) ∧
    (range_set_strict rs → range_set_strict (add_absent_range rs range)) ∧
    add_absent_range [⟨0, true, 5⟩] ⟨5, true, 9⟩ = [⟨0, true, 9⟩] ∧
    add_absent_range [⟨0, true, 5⟩, ⟨20, true, 30⟩] ⟨5, true, 10⟩ =
      [⟨0, true, 10⟩, ⟨20, true, 30⟩] := by
  refine ⟨aar_ok rs range hok, range_set_ok_pairwise _ (aar_ok rs range hok),
    fun hb he => aar_empty_noop rs range ?_,
    aar_contained_noop rs range hok, aar_covers rs range hok,
    aar_contains_self rs range hok,
    fun hs => aar_strict rs range hs, rfl, rfl⟩
  simp [key_range_t.is_empty_range, hb]
  omega

theorem add_absent_range_spec_witness :
    add_absent_range [⟨0, true, 10⟩] ⟨3, true, 4⟩ = [⟨0, true, 10⟩] :=
  (add_absent_range_spec [⟨0, true, 10⟩] ⟨3, true, 4⟩
    ⟨by intro r hr; rw [List.mem_singleton] at hr; subst hr; intro _; decide,
     List.chain'_singleton _⟩).2.2.2.1
    ⟨⟨0, true, 10⟩, by simp, by decide⟩

/-- Claim C7: `add_absent_range` is idempotent on invariant-satisfying sets
(inserting the same range twice yields the same ordered-disjoint list), and
from the empty set, inserting the range from 0 to 5 and then the range from
3 to 8 yields the single range from 0 to 8. -/
theorem add_absent_range_idempotent :
    (∀ rs range, range_set_ok rs →
      add_absent_range (add_absent_range rs range) range = add_absent_range rs range) ∧
    add_absent_range (add_absent_range [] ⟨0, true, 5⟩) ⟨3, true, 8⟩ = [⟨0, true, 8⟩] :=
  ⟨fun rs range hok => aar_idem rs range hok, by decide⟩

theorem add_absent_range_idempotent_witness :
    add_absent_range (add_absent_range [⟨2, true, 4⟩] ⟨1, true, 3⟩) ⟨1, true, 3⟩ =
      add_absent_range [⟨2, true, 4⟩] ⟨1, true, 3⟩ :=
  add_absent_range_idempotent.1 [⟨2, true, 4⟩] ⟨1, true, 3⟩
    ⟨by intro r hr; rw [List.mem_singleton] at hr; subst hr; intro _; decide,
     List.chain'_singleton _⟩

/-- Claim C10: on an absent_range_set satisfying the sorted-disjoint
invariant, `key_in_absent_set` returns true iff some range of the set
contains the key, although it tests only the single candidate located by
`upper_bound` over the ranges' bounds. -/
theorem key_in_absent_set_spec (rs : List key_range_t) (k : Nat)
    (hok : range_set_ok rs) :
    key_in_absent_set rs k = true ↔ covers rs k := by
  unfold key_in_absent_set
  have hsplit := ubSplit_append k rs
  have hpre := ubSplit_pre_mem k rs
  rcases hub : ubSplit k rs with ⟨pre, suf⟩
  rw [hub] at hsplit hpre
  simp only at hsplit hpre
  cases suf with
  | nil =>
      rw [List.append_nil] at hsplit
      constructor
      · intro h
        exact absurd h (by simp)
      · rintro ⟨r, hr, hrk⟩
        rw [← hsplit] at hr
        obtain ⟨hb, hble⟩ := hpre r hr
        rw [key_in_range_iff] at hrk
        have := hrk.2 hb
        omega
  | cons it stail =>
      dsimp only
      constructor
      · intro h
        exact ⟨it, by rw [← hsplit]; simp, h⟩
      · rintro ⟨r, hr, hrk⟩
        rw [← hsplit] at hr
        rcases List.mem_append.mp hr with h | h
        · obtain ⟨hb, hble⟩ := hpre r h
          rw [key_in_range_iff] at hrk
          have := hrk.2 hb
          omega
        · rcases List.mem_cons.mp h with h | h
          · rw [← h]
            exact hrk
          · have hok2 : range_set_ok (pre ++ it :: stail) := by rw [hsplit]; exact hok
            obtain ⟨-, hokit, -⟩ := (range_set_ok_append_iff _ _).mp hok2
            have hch := chain_ok_head_le it stail hokit r h
            have hitc := ubSplit_suf_head k rs it stail (by rw [hub])
            rw [key_in_range_iff] at hrk
            rcases hitc with hcc | hcc
            · exact absurd hch.1 (by simp [hcc])
            · have h1 := hrk.1
              have h2 := hch.2
              omega

theorem key_in_absent_set_spec_witness :
    key_in_absent_set [⟨0, true, 5⟩, ⟨7, true, 9⟩] 7 = true :=
  (key_in_absent_set_spec [⟨0, true, 5⟩, ⟨7, true, 9⟩] 7
    ⟨by
      intro r hr
      rcases List.mem_cons.mp hr with h | h
      · subst h; intro _; decide
      · rw [List.mem_singleton] at h; subst h; intro _; decide,
     by
      rw [List.chain'_cons]
      exact ⟨⟨rfl, by decide⟩, List.chain'_singleton _⟩⟩).mpr
    ⟨⟨7, true, 9⟩, by simp, by decide⟩

end Silo
